import Mathlib

/-!
Verification of the chaotic-LSB steganography core: the pixel codec
(`encodeMessage` / `decodeMessage`), the audio codec
(`encodeAudioMessage` / `decodeAudioMessage`) and the crypto envelope
(`encryptData` / `decryptData`), embedded shallowly from the TypeScript
source.  Bit strings (JS strings of '0'/'1' characters) are modelled as
`List Bool` with '1' ↔ `true`; byte arrays as `List Nat`.
-/

set_option maxRecDepth 100000

/-! ## Bit-string utilities shared by both codec files -/

/-- Helper for the little-endian binary digits: the first argument is fuel
bounding the recursion depth, so that the recursion is structural and the
function evaluates inside the kernel; any fuel of at least the value itself
gives the same digits (bitsLEAux_congr below). -/
def bitsLEAux : Nat → Nat → List Bool
  | _, 0 => []
  | 0, _ + 1 => []
  | fuel + 1, n + 1 => ((n + 1) % 2 == 1) :: bitsLEAux fuel ((n + 1) / 2)

/-- Little-endian binary digits of a natural number (empty for 0). -/
def bitsLE (n : Nat) : List Bool := bitsLEAux n n

/-- Model of the JS expression n.toString(2): binary digits, most significant
first, with 0 rendered as the single digit '0'. -/
def toBinaryDigits (n : Nat) : List Bool :=
  if n = 0 then [false] else (bitsLE n).reverse

/-- Model of the JS call s.padStart(len, '0') on a digit string. -/
def padStart (len : Nat) (l : List Bool) : List Bool :=
  List.replicate (len - l.length) false ++ l

/-- Model of parseInt(s, 2) on a nonempty string of '0'/'1' characters:
the MSB-first binary value. -/
def bitsToNat (l : List Bool) : Nat :=
  l.foldl (fun acc b => 2 * acc + b.toNat) 0

/-- Source function bytesToBinary: every byte expanded to 8 binary characters
(via toString(2).padStart(8, '0')), concatenated. -/
def byteBits (b : Nat) : List Bool := padStart 8 (toBinaryDigits b)

/-- Source function bytesToBinary (identical in both codec files). -/
def bytesToBinary (bytes : List Nat) : List Bool :=
  (bytes.map byteBits).flatten

/-- Source function binaryToBytes: repack a bit string into bytes, 8 bits per
byte, MSB first.  The output Uint8Array is allocated with ⌊length/8⌋ entries
(JS ToIndex truncates the fractional length), so the write of a trailing
partial chunk is out of range and silently dropped. -/
def binaryToBytes : List Bool → List Nat
  | b0 :: b1 :: b2 :: b3 :: b4 :: b5 :: b6 :: b7 :: rest =>
      bitsToNat [b0, b1, b2, b3, b4, b5, b6, b7] :: binaryToBytes rest
  | _ => []

/-! ## SeededRandom and the chaotic shuffle

The class `SeededRandom` appears verbatim in both the pixel file and the
audio file: the constructor sums the UTF-16 character codes of the seed
string, and `next()` advances `state = (state * 9301 + 49297) % 233280`,
returning `state / 233280 ∈ [0,1)`.  The only use of the returned float is
`Math.floor(rng.next() * (i + 1))`, which we model in exact integer
arithmetic as `state * (i + 1) / 233280`. -/

/-- UTF-16 code units of a string, as produced by JS charCodeAt. -/
def charCodes (s : String) : List Nat :=
  (s.data.map (fun c =>
    if c.toNat < 0x10000 then [c.toNat]
    else [0xD800 + (c.toNat - 0x10000) / 0x400,
          0xDC00 + (c.toNat - 0x10000) % 0x400])).flatten

/-- SeededRandom constructor: the initial state is the sum of the character
codes of the seed string. -/
def seedInit (s : String) : Nat := (charCodes s).sum

/-- One step of the linear congruential generator in SeededRandom.next. -/
def lcgNext (state : Nat) : Nat := (state * 9301 + 49297) % 233280

/-- One iteration of the Fisher-Yates loop: draw j = floor(next() * (i + 1))
and swap positions i and j. -/
def fyStep (p : List Nat × Nat) (i : Nat) : List Nat × Nat :=
  let st := lcgNext p.2
  let j := st * (i + 1) / 233280
  ((p.1.set i (p.1.getD j 0)).set j (p.1.getD i 0), st)

/-- The chaotic-shuffle loop, iterating i from len-1 down to 1. -/
def fisherYates (state0 : Nat) (a : List Nat) : List Nat :=
  ((List.range' 1 (a.length - 1)).reverse.foldl fyStep (a, state0)).1

/-! ## Pixel codec (encodeMessage / decodeMessage) -/

/-- Default seed constant of the pixel codec file. -/
def DEFAULT_SEED : String := "steganopro-default-chaotic-seed"

/-- Usable embedding slots of a pixel buffer of n components: every index i
with (i + 1) % 4 ≠ 0 (the alpha channel is skipped), in ascending order. -/
def availableIndices (n : Nat) : List Nat :=
  (List.range n).filter (fun i => (i + 1) % 4 != 0)

/-- Slot order computed inside encodeMessage: an absent seed argument
defaults to DEFAULT_SEED; the chaotic shuffle runs unless the effective
seed is the empty string (the only falsy string). -/
def encodeSlots (n : Nat) (seed : Option String) : List Nat :=
  let s := seed.getD DEFAULT_SEED
  if s = "" then availableIndices n
  else fisherYates (seedInit s) (availableIndices n)

/-- Slot order computed inside decodeMessage; the source duplicates the same
default-seed and shuffle code in both directions. -/
def decodeSlots (n : Nat) (seed : Option String) : List Nat :=
  let s := seed.getD DEFAULT_SEED
  if s = "" then availableIndices n
  else fisherYates (seedInit s) (availableIndices n)

/-- Model of the write (newData[slot] & 0xfe) | bit. -/
def setLSB (v : Nat) (b : Bool) : Nat := v &&& 0xfe ||| b.toNat

/-- The write loop of encodeMessage over the cloned buffer. -/
def writeBits (data : List Nat) (slots : List Nat) (bits : List Bool) :
    List Nat :=
  (slots.zip bits).foldl (fun d p => d.set p.1 (setLSB (d.getD p.1 0) p.2))
    data

/-- Source function encodeMessage: 32-bit MSB-first length header followed by
the payload bits, written into the LSBs of the (possibly shuffled) usable
slots of a cloned buffer; null when the bitstream exceeds capacity. -/
def encodeMessage (data : List Nat) (payload : List Nat)
    (seed : Option String) : Option (List Nat) :=
  let binaryPayload := bytesToBinary payload
  let lengthBinary := padStart 32 (toBinaryDigits binaryPayload.length)
  let totalBits := lengthBinary ++ binaryPayload
  if (availableIndices data.length).length < totalBits.length then none
  else some (writeBits data (encodeSlots data.length seed) totalBits)

/-- Model of data[availableIndices[i]] & 1; a JS out-of-range slot read gives
undefined and undefined & 1 is 0, captured by the out-of-range defaults. -/
def readBit (data : List Nat) (slots : List Nat) (i : Nat) : Bool :=
  (data.getD (slots.getD i data.length) 0) % 2 == 1

/-- The 32-bit length header extracted by decodeMessage. -/
def headerValue (data : List Nat) (seed : Option String) : Nat :=
  bitsToNat ((List.range 32).map (readBit data (decodeSlots data.length seed)))

/-- Source function decodeMessage: read the 32-bit header, reject a
non-positive length or one exceeding the remaining capacity (JS compares
with the possibly negative availableIndices.length - 32, hence the Int
comparison), then read that many payload bits and repack them. -/
def decodeMessage (data : List Nat) (seed : Option String) :
    Option (List Nat) :=
  let slots := decodeSlots data.length seed
  let payloadLength := headerValue data seed
  if payloadLength = 0 ∨ ((slots.length : Int) - 32 < (payloadLength : Int))
  then none
  else some (binaryToBytes
    ((List.range payloadLength).map (fun i => readBit data slots (32 + i))))

/-! ## Audio codec (encodeAudioMessage / decodeAudioMessage)

Samples live in Float32Arrays.  Sample values are modelled as exact
rational numbers; to keep every definition kernel-evaluable they are
represented by the unnormalized fraction type `Frac` below (numerator and
positive denominator, no gcd reduction) rather than by `ℚ`.  The only place
where IEEE rounding matters is the store
channelData[sampleIndex] = intSample / 32767, which performs a binary64
division and then rounds the result to binary32 on assignment into the
Float32Array.  Both roundings are modelled exactly (round to nearest, ties
to even; the magnitudes involved never reach the exponent limits or the
subnormal range of either format).  Reads are exact: a binary32 sample
times the 15-bit constant 32767 fits in 39 significand bits, so the
binary64 product and Math.floor are exact. -/

/-- Exact rational value, kept unnormalized: the represented number is
num / den with den positive for every fraction this development builds. -/
structure Frac where
  num : Int
  den : Nat

/-- The integer sample value n as a fraction. -/
def Frac.ofInt (n : Int) : Frac := ⟨n, 1⟩

/-- Exact product of a fraction with an integer. -/
def Frac.mulInt (q : Frac) (k : Int) : Frac := ⟨q.num * k, q.den⟩

/-- Negation of a fraction. -/
def Frac.neg (q : Frac) : Frac := ⟨-q.num, q.den⟩

/-- Mathematical floor of a fraction with positive denominator (Euclidean
division of the numerator by the denominator rounds toward negative
infinity there), matching JS Math.floor on the represented value. -/
def Frac.floor (q : Frac) : Int := q.num.ediv q.den

/-- Exact multiplication by an integer power of two. -/
def Frac.mulPow2 (q : Frac) (k : Int) : Frac :=
  if 0 ≤ k then ⟨q.num * ((2 ^ k.toNat : Nat) : Int), q.den⟩
  else ⟨q.num, q.den * 2 ^ (-k).toNat⟩

/-- Comparison of a fraction (with positive denominator) against an integer
power of two. -/
def fracLtPow2 (q : Frac) (e : Int) : Bool :=
  if 0 ≤ e then q.num < ((2 ^ e.toNat : Nat) : Int) * (q.den : Int)
  else q.num * ((2 ^ (-e).toNat : Nat) : Int) < (q.den : Int)

/-- Floor of the base-2 logarithm of a positive natural number, computed
from the binary digit count (structural, hence kernel-evaluable). -/
def natLog2 (n : Nat) : Nat := (bitsLE n).length - 1

/-- Binary exponent of a positive fraction: the e with 2^e ≤ q < 2^(e+1).
The first candidate from the numerator/denominator bit lengths is off by at
most one, so a bounded correction suffices. -/
def ilog2F (q : Frac) : Int :=
  let a : Int := (natLog2 q.num.toNat : Int) - (natLog2 q.den : Int)
  if fracLtPow2 q (a - 1) then a - 2
  else if fracLtPow2 q a then a - 1
  else if fracLtPow2 q (a + 1) then a
  else if fracLtPow2 q (a + 2) then a + 1
  else a + 2

/-- Round a positive fraction to prec significant bits, nearest, ties to
even: scale into [2^(prec-1), 2^prec), take the floor, and resolve the
fractional part against one half (2 * fractional numerator versus the
denominator). -/
def roundFloatPos (prec : Nat) (q : Frac) : Frac :=
  let shift : Int := (prec : Int) - 1 - ilog2F q
  let scaled := q.mulPow2 shift
  let fl := scaled.floor
  let num2 : Int := 2 * (scaled.num - fl * scaled.den)
  let r : Int :=
    if (scaled.den : Int) < num2 then fl + 1
    else if num2 < (scaled.den : Int) then fl
    else if fl % 2 = 0 then fl else fl + 1
  Frac.mulPow2 ⟨r, 1⟩ (-shift)

/-- Round a fraction to prec significant bits (IEEE round to nearest even,
away from the exponent limits). -/
def roundFloat (prec : Nat) (q : Frac) : Frac :=
  if q.num = 0 then ⟨0, 1⟩
  else if q.num < 0 then Frac.neg (roundFloatPos prec (Frac.neg q))
  else roundFloatPos prec q

/-- Rounding to IEEE binary64 (JS number arithmetic). -/
def float64Round (q : Frac) : Frac := roundFloat 53 q

/-- Rounding to IEEE binary32 (storage into a Float32Array). -/
def float32Round (q : Frac) : Frac := roundFloat 24 q

/-- JS ToUint32 of an integer. -/
def toUint32 (a : Int) : Nat := (a % (2 ^ 32 : Int)).toNat

/-- JS bitwise (a & 0xfffe): both operands pass through ToInt32; since the
mask has no bits above bit 15 the result is the nonnegative value below. -/
def jsAndFFFE (a : Int) : Nat := toUint32 a &&& 0xfffe

/-- Embedding one bit into one sample, as in the encode loop: quantize with
floor(sample * 32767), clear the LSB, OR in the bit, store the quotient
intSample / 32767 into the Float32Array (binary64 division, then binary32
storage rounding). -/
def embedSampleVal (q : Frac) (b : Bool) : Frac :=
  let y : Nat := jsAndFFFE (q.mulInt 32767).floor ||| b.toNat
  float32Round (float64Round ⟨(y : Int), 32767⟩)

/-- Extracting one bit from one sample: floor(sample * 32767) & 1 (the AND
again applies ToInt32 to a possibly negative integer). -/
def extractBit (q : Frac) : Bool := toUint32 (q.mulInt 32767).floor &&& 1 == 1

/-- Carrier for the audio codec: channel count, per-channel length and the
per-channel sample lists (the sample rate plays no role in the codec). -/
structure AudioBuffer where
  numberOfChannels : Nat
  length : Nat
  channelData : List (List Frac)

/-- Default seed constant of the audio codec file. -/
def AUDIO_DEFAULT_SEED : String := "steganopro-audio-chaotic-seed"

/-- Slot order computed inside encodeAudioMessage: the identity sequence on
all global sample indices, shuffled unless the effective seed is empty. -/
def audioEncodeSlots (totalSamples : Nat) (seed : Option String) : List Nat :=
  let s := seed.getD AUDIO_DEFAULT_SEED
  if s = "" then List.range totalSamples
  else fisherYates (seedInit s) (List.range totalSamples)

/-- Slot order computed inside decodeAudioMessage (the same code again). -/
def audioDecodeSlots (totalSamples : Nat) (seed : Option String) : List Nat :=
  let s := seed.getD AUDIO_DEFAULT_SEED
  if s = "" then List.range totalSamples
  else fisherYates (seedInit s) (List.range totalSamples)

/-- Read a sample from the per-channel data. -/
def getSample (chans : List (List Frac)) (ch idx : Nat) : Frac :=
  (chans.getD ch []).getD idx (Frac.ofInt 0)

/-- Write a sample into the per-channel data. -/
def setSample (chans : List (List Frac)) (ch idx : Nat) (v : Frac) :
    List (List Frac) :=
  chans.set ch ((chans.getD ch []).set idx v)

/-- The write loop of encodeAudioMessage: global index g addresses channel
g % channels, sample g / channels. -/
def writeAudioBits (channels : Nat) (chans : List (List Frac))
    (slots : List Nat) (bits : List Bool) : List (List Frac) :=
  (slots.zip bits).foldl
    (fun cd p =>
      setSample cd (p.1 % channels) (p.1 / channels)
        (embedSampleVal (getSample cd (p.1 % channels) (p.1 / channels)) p.2))
    chans

/-- Source function encodeAudioMessage. -/
def encodeAudioMessage (buf : AudioBuffer) (payload : List Nat)
    (seed : Option String) : Option AudioBuffer :=
  let binaryPayload := bytesToBinary payload
  let lengthBinary := padStart 32 (toBinaryDigits binaryPayload.length)
  let totalBits := lengthBinary ++ binaryPayload
  let totalSamples := buf.numberOfChannels * buf.length
  if totalSamples < totalBits.length then none
  else some ⟨buf.numberOfChannels, buf.length,
    writeAudioBits buf.numberOfChannels buf.channelData
      (audioEncodeSlots totalSamples seed) totalBits⟩

/-- Bit i of the (shuffled) audio bitstream as read by decodeAudioMessage. -/
def readAudioBit (buf : AudioBuffer) (slots : List Nat) (i : Nat) : Bool :=
  let g := slots.getD i (buf.numberOfChannels * buf.length)
  extractBit
    (getSample buf.channelData (g % buf.numberOfChannels)
      (g / buf.numberOfChannels))

/-- The 32-bit length header extracted by decodeAudioMessage. -/
def audioHeaderValue (buf : AudioBuffer) (seed : Option String) : Nat :=
  bitsToNat ((List.range 32).map
    (readAudioBit buf
      (audioDecodeSlots (buf.numberOfChannels * buf.length) seed)))

/-- Source function decodeAudioMessage. -/
def decodeAudioMessage (buf : AudioBuffer) (seed : Option String) :
    Option (List Nat) :=
  let totalSamples := buf.numberOfChannels * buf.length
  let slots := audioDecodeSlots totalSamples seed
  let payloadLength := audioHeaderValue buf seed
  if payloadLength = 0 ∨ ((totalSamples : Int) - 32 < (payloadLength : Int))
  then none
  else some (binaryToBytes
    ((List.range payloadLength).map
      (fun i => readAudioBit buf slots (32 + i))))

/-! ## Crypto envelope (encryptData / decryptData)

The envelope code composes platform primitives (WebCrypto PBKDF2 key
derivation, AES-256-GCM, gzip Compression/DecompressionStreams, the UTF-8
TextDecoder) that are not part of the repository; they are modelled as
abstract functions passed to the envelope, assumed only to be inverse pairs
where the claims assume so.  The random salt and nonce draws are modelled
as explicit arguments. -/

/-- Source function encryptData: optionally gzip, derive a key from the
password and the fresh salt, seal with AES-GCM under the fresh nonce, and
pack flag ++ salt ++ iv ++ ciphertext. -/
def encryptData {K : Type} (deriveKey : String → List Nat → K)
    (aesGcmEncrypt : K → List Nat → List Nat → List Nat)
    (gzipCompress : List Nat → List Nat)
    (data : List Nat) (password : String) (compress : Bool)
    (salt iv : List Nat) : List Nat :=
  let rawData := if compress then gzipCompress data else data
  let key := deriveKey password salt
  let encrypted := aesGcmEncrypt key iv rawData
  (if compress then 1 else 0) :: (salt ++ iv ++ encrypted)

/-- Source function decryptData: unpack by fixed offsets (slice(1, 17),
slice(17, 29), slice(29)), re-derive the key, open the cipher (None models
the thrown authentication failure), optionally decompress, and classify the
result as text. -/
def decryptData {K : Type} (deriveKey : String → List Nat → K)
    (aesGcmDecrypt : K → List Nat → List Nat → Option (List Nat))
    (gzipDecompress : List Nat → List Nat)
    (utf8Valid : List Nat → Bool)
    (combined : List Nat) (password : String) :
    Option (List Nat × Bool) :=
  let isCompressed := combined.getD 0 0 == 1
  let salt := (combined.drop 1).take 16
  let iv := (combined.drop 17).take 12
  let data := combined.drop 29
  let key := deriveKey password salt
  match aesGcmDecrypt key iv data with
  | none => none
  | some decrypted =>
    let resultData := if isCompressed then gzipDecompress decrypted
      else decrypted
    some (resultData, utf8Valid resultData)

/-! ## Lemmas about the bit-string utilities -/

theorem bitsLEAux_congr : ∀ (n f1 f2 : Nat), n ≤ f1 → n ≤ f2 →
    bitsLEAux f1 n = bitsLEAux f2 n := by
  intro n
  induction n using Nat.strong_induction_on with
  | _ n ih =>
    intro f1 f2 h1 h2
    cases n with
    | zero => cases f1 <;> cases f2 <;> rfl
    | succ m =>
      cases f1 with
      | zero => omega
      | succ g1 =>
        cases f2 with
        | zero => omega
        | succ g2 =>
          show (_ == _) :: bitsLEAux g1 ((m + 1) / 2)
              = (_ == _) :: bitsLEAux g2 ((m + 1) / 2)
          congr 1
          exact ih ((m + 1) / 2) (by omega) g1 g2 (by omega) (by omega)

theorem bitsLE_zero : bitsLE 0 = [] := rfl

theorem bitsLE_pos {n : Nat} (h : n ≠ 0) :
    bitsLE n = (n % 2 == 1) :: bitsLE (n / 2) := by
  cases n with
  | zero => exact absurd rfl h
  | succ m =>
    show bitsLEAux (m + 1) (m + 1) = _
    show (_ == _) :: bitsLEAux m ((m + 1) / 2) = _
    congr 1
    exact bitsLEAux_congr ((m + 1) / 2) m ((m + 1) / 2) (by omega) (by omega)

theorem bitsLE_length_le {k n : Nat} (h : n < 2 ^ k) :
    (bitsLE n).length ≤ k := by
  induction k generalizing n with
  | zero =>
    have hn : n = 0 := by simpa using h
    subst hn
    simp [bitsLE_zero]
  | succ k ih =>
    by_cases h0 : n = 0
    · subst h0
      simp [bitsLE_zero]
    · rw [bitsLE_pos h0]
      have hdiv : n / 2 < 2 ^ k := by
        have h2 : n < 2 ^ k * 2 := by
          rw [← Nat.pow_succ]
          exact h
        exact (Nat.div_lt_iff_lt_mul (by omega)).mpr h2
      simpa using ih hdiv

theorem foldl_bitsToNat (l : List Bool) (a : Nat) :
    l.foldl (fun acc b => 2 * acc + b.toNat) a =
      a * 2 ^ l.length + bitsToNat l := by
  induction l generalizing a with
  | nil => simp [bitsToNat]
  | cons b t ih =>
    show t.foldl _ (2 * a + b.toNat) = _
    rw [ih]
    have hb : bitsToNat (b :: t) = b.toNat * 2 ^ t.length + bitsToNat t := by
      show t.foldl _ (2 * 0 + b.toNat) = _
      rw [ih]
      simp
    rw [hb]
    simp [List.length_cons, Nat.pow_succ]
    ring

theorem bitsToNat_append (xs ys : List Bool) :
    bitsToNat (xs ++ ys) = bitsToNat xs * 2 ^ ys.length + bitsToNat ys := by
  show (xs ++ ys).foldl _ 0 = _
  rw [List.foldl_append]
  exact foldl_bitsToNat ys (xs.foldl _ 0)

theorem bitsToNat_concat (xs : List Bool) (b : Bool) :
    bitsToNat (xs ++ [b]) = 2 * bitsToNat xs + b.toNat := by
  rw [bitsToNat_append]
  have : bitsToNat [b] = b.toNat := by cases b <;> rfl
  rw [this]
  simp [Nat.pow_succ]
  ring

theorem bitsToNat_bitsLE_reverse (n : Nat) :
    bitsToNat (bitsLE n).reverse = n := by
  induction n using Nat.strong_induction_on with
  | _ n ih =>
    by_cases h0 : n = 0
    · subst h0
      simp [bitsLE_zero, bitsToNat]
    · rw [bitsLE_pos h0, List.reverse_cons, bitsToNat_concat]
      rw [ih (n / 2) (Nat.div_lt_self (Nat.pos_of_ne_zero h0) (by omega))]
      have h2 : n % 2 = 0 ∨ n % 2 = 1 := by omega
      rcases h2 with h2 | h2 <;> simp [h2] <;> omega

theorem bitsToNat_toBinaryDigits (n : Nat) :
    bitsToNat (toBinaryDigits n) = n := by
  unfold toBinaryDigits
  split
  · subst_eqs
    rfl
  · exact bitsToNat_bitsLE_reverse n

theorem bitsToNat_replicate_false (k : Nat) :
    bitsToNat (List.replicate k false) = 0 := by
  induction k with
  | zero => rfl
  | succ k ih =>
    show (List.replicate k false).foldl _ (2 * 0 + false.toNat) = 0
    simpa [bitsToNat] using ih

theorem bitsToNat_padStart (k : Nat) (l : List Bool) :
    bitsToNat (padStart k l) = bitsToNat l := by
  unfold padStart
  rw [bitsToNat_append, bitsToNat_replicate_false]
  simp

theorem padStart_length (k : Nat) (l : List Bool) :
    (padStart k l).length = max k l.length := by
  simp [padStart]
  omega

theorem toBinaryDigits_length_le {k n : Nat} (hk : 0 < k) (h : n < 2 ^ k) :
    (toBinaryDigits n).length ≤ k := by
  unfold toBinaryDigits
  split
  · simpa using hk
  · simpa using bitsLE_length_le h

theorem padStart_length_eq {k : Nat} {l : List Bool} (h : l.length ≤ k) :
    (padStart k l).length = k := by
  rw [padStart_length]
  omega

theorem byteBits_length {b : Nat} (h : b < 256) : (byteBits b).length = 8 := by
  unfold byteBits
  exact padStart_length_eq (toBinaryDigits_length_le (by omega) (by omega))

theorem bitsToNat_byteBits (b : Nat) : bitsToNat (byteBits b) = b := by
  unfold byteBits
  rw [bitsToNat_padStart, bitsToNat_toBinaryDigits]

theorem bytesToBinary_cons (b : Nat) (M : List Nat) :
    bytesToBinary (b :: M) = byteBits b ++ bytesToBinary M := by
  simp [bytesToBinary]

theorem bytesToBinary_length {M : List Nat} (h : ∀ b ∈ M, b < 256) :
    (bytesToBinary M).length = 8 * M.length := by
  induction M with
  | nil => rfl
  | cons b t ih =>
    rw [bytesToBinary_cons, List.length_append,
      byteBits_length (h b (by simp)), ih (fun x hx => h x (by simp [hx]))]
    simp [List.length_cons]
    ring

theorem binaryToBytes_short {bin : List Bool} (h : bin.length < 8) :
    binaryToBytes bin = [] := by
  rcases bin with _ | ⟨b0, _ | ⟨b1, _ | ⟨b2, _ | ⟨b3, _ | ⟨b4,
    _ | ⟨b5, _ | ⟨b6, _ | ⟨b7, t⟩⟩⟩⟩⟩⟩⟩⟩
  all_goals first
  | rfl
  | (simp only [List.length_cons] at h; omega)

theorem binaryToBytes_chunk {c : List Bool} (r : List Bool)
    (hc : c.length = 8) :
    binaryToBytes (c ++ r) = bitsToNat c :: binaryToBytes r := by
  rcases c with _ | ⟨b0, _ | ⟨b1, _ | ⟨b2, _ | ⟨b3, _ | ⟨b4,
    _ | ⟨b5, _ | ⟨b6, _ | ⟨b7, t⟩⟩⟩⟩⟩⟩⟩⟩ <;>
    simp only [List.length_cons, List.length_nil] at hc <;> try omega
  have ht : t = [] := List.eq_nil_of_length_eq_zero (by omega)
  subst ht
  rfl

theorem binaryToBytes_bytesToBinary {M : List Nat} (h : ∀ b ∈ M, b < 256) :
    binaryToBytes (bytesToBinary M) = M := by
  induction M with
  | nil =>
    rw [show bytesToBinary [] = [] from rfl]
    exact binaryToBytes_short (by simp)
  | cons b t ih =>
    rw [bytesToBinary_cons,
      binaryToBytes_chunk _ (byteBits_length (h b (by simp))),
      bitsToNat_byteBits, ih (fun x hx => h x (by simp [hx]))]

theorem binaryToBytes_length (bin : List Bool) :
    (binaryToBytes bin).length = bin.length / 8 := by
  suffices h : ∀ (n : Nat) (l : List Bool), l.length ≤ n →
      (binaryToBytes l).length = l.length / 8 from
    h bin.length bin (Nat.le_refl _)
  intro n
  induction n with
  | zero =>
    intro l hl
    have hnil : l = [] := List.eq_nil_of_length_eq_zero (by omega)
    subst hnil
    rfl
  | succ n ih =>
    intro l hl
    by_cases h8 : 8 ≤ l.length
    · have h1 : binaryToBytes l =
          bitsToNat (l.take 8) :: binaryToBytes (l.drop 8) := by
        conv_lhs => rw [← List.take_append_drop 8 l]
        exact binaryToBytes_chunk _ (by rw [List.length_take]; omega)
      rw [h1, List.length_cons, ih (l.drop 8) (by rw [List.length_drop]; omega),
        List.length_drop]
      omega
    · rw [binaryToBytes_short (by omega)]
      simp only [List.length_nil]
      omega

/-! ## Lemmas about the chaotic shuffle -/

theorem getD_set_ne (l : List Nat) {i j : Nat} (hne : i ≠ j) (v d : Nat) :
    (l.set i v).getD j d = l.getD j d := by
  simp [List.getD_eq_getElem?_getD, List.getElem?_set_ne hne]

theorem getD_set_self (l : List Nat) {i : Nat} (h : i < l.length)
    (v d : Nat) : (l.set i v).getD i d = v := by
  simp [List.getD_eq_getElem?_getD, List.getElem?_set_self h]

theorem set_getD_self (l : List Nat) {i : Nat} (h : i < l.length) :
    l.set i (l.getD i 0) = l := by
  apply List.ext_getElem?
  intro n
  rw [List.getElem?_set]
  rcases eq_or_ne i n with rfl | hne
  · rw [if_pos rfl, if_pos h, List.getD_eq_getElem?_getD,
      List.getElem?_eq_getElem h]
    rfl
  · rw [if_neg hne]

theorem count_set_add {l : List Nat} {i : Nat} (v x : Nat)
    (h : i < l.length) :
    (l.set i v).count x + (if l.getD i 0 = x then 1 else 0) =
      l.count x + (if v = x then 1 else 0) := by
  induction l generalizing i with
  | nil => simp at h
  | cons a t ih =>
    cases i with
    | zero =>
      simp only [List.set_cons_zero, List.count_cons, List.getD_cons_zero]
      split_ifs <;> simp_all
    | succ i =>
      simp only [List.set_cons_succ, List.count_cons, List.getD_cons_succ]
      have hi : i < t.length := by simpa using h
      have := ih hi
      split_ifs at this ⊢ <;> omega

theorem set_set_swap_perm (l : List Nat) (i j : Nat) (hi : i < l.length)
    (hj : j < l.length) :
    ((l.set i (l.getD j 0)).set j (l.getD i 0)).Perm l := by
  rcases eq_or_ne i j with rfl | hne
  · rw [List.set_set, set_getD_self l hi]
  · rw [List.perm_iff_count]
    intro x
    have hjA : j < (l.set i (l.getD j 0)).length := by simpa using hj
    have e1 := count_set_add (l := l.set i (l.getD j 0)) (i := j)
      (l.getD i 0) x hjA
    have e2 := count_set_add (l := l) (i := i) (l.getD j 0) x hi
    rw [getD_set_ne l hne] at e1
    omega

theorem fyStep_perm (a : List Nat) (s i : Nat) (hi : i < a.length) :
    (fyStep (a, s) i).1.Perm a := by
  have hst : lcgNext s < 233280 := Nat.mod_lt _ (by omega)
  have hjlt : lcgNext s * (i + 1) / 233280 < a.length := by
    have hj1 : lcgNext s * (i + 1) / 233280 < i + 1 := by
      apply (Nat.div_lt_iff_lt_mul (by omega)).mpr
      calc lcgNext s * (i + 1) < 233280 * (i + 1) :=
        (Nat.mul_lt_mul_right (by omega)).mpr hst
      _ = (i + 1) * 233280 := by ring
    omega
  exact set_set_swap_perm a i _ hi hjlt

theorem foldl_fyStep_perm (l : List Nat) :
    ∀ (a : List Nat) (s : Nat), (∀ i ∈ l, i < a.length) →
      ((l.foldl fyStep (a, s)).1).Perm a := by
  induction l with
  | nil =>
    intro a s _
    simp
  | cons i t ih =>
    intro a s hmem
    rw [List.foldl_cons]
    have hi : i < a.length := hmem i (by simp)
    have hstep : (fyStep (a, s) i).1.Perm a := fyStep_perm a s i hi
    have hrec := ih (fyStep (a, s) i).1 (fyStep (a, s) i).2
      (fun x hx => hstep.length_eq ▸ hmem x (by simp [hx]))
    exact hrec.trans hstep

theorem fisherYates_perm (s : Nat) (a : List Nat) :
    (fisherYates s a).Perm a := by
  unfold fisherYates
  apply foldl_fyStep_perm
  intro i hi
  rw [List.mem_reverse] at hi
  rcases List.mem_range'.1 hi with ⟨k, hk, rfl⟩
  omega

theorem fisherYates_length (s : Nat) (a : List Nat) :
    (fisherYates s a).length = a.length :=
  (fisherYates_perm s a).length_eq

theorem availableIndices_nodup (n : Nat) : (availableIndices n).Nodup :=
  (List.nodup_range n).filter _

theorem availableIndices_lt {n x : Nat} (h : x ∈ availableIndices n) :
    x < n := by
  unfold availableIndices at h
  rw [List.mem_filter] at h
  exact List.mem_range.1 h.1

theorem availableIndices_alpha_free {n x : Nat}
    (h : x ∈ availableIndices n) : (x + 1) % 4 ≠ 0 := by
  unfold availableIndices at h
  rw [List.mem_filter] at h
  simpa using h.2

theorem encodeSlots_perm (n : Nat) (seed : Option String) :
    (encodeSlots n seed).Perm (availableIndices n) := by
  simp only [encodeSlots]
  split
  · exact List.Perm.refl _
  · exact fisherYates_perm _ _

theorem decodeSlots_eq_encodeSlots (n : Nat) (seed : Option String) :
    decodeSlots n seed = encodeSlots n seed := rfl

theorem encodeSlots_nodup (n : Nat) (seed : Option String) :
    (encodeSlots n seed).Nodup :=
  (availableIndices_nodup n).perm (encodeSlots_perm n seed).symm

theorem encodeSlots_lt {n : Nat} {seed : Option String} {x : Nat}
    (h : x ∈ encodeSlots n seed) : x < n :=
  availableIndices_lt ((encodeSlots_perm n seed).mem_iff.1 h)

theorem encodeSlots_length (n : Nat) (seed : Option String) :
    (encodeSlots n seed).length = (availableIndices n).length :=
  (encodeSlots_perm n seed).length_eq

theorem audioEncodeSlots_perm (n : Nat) (seed : Option String) :
    (audioEncodeSlots n seed).Perm (List.range n) := by
  simp only [audioEncodeSlots]
  split
  · exact List.Perm.refl _
  · exact fisherYates_perm _ _

theorem audioDecodeSlots_eq_audioEncodeSlots (n : Nat)
    (seed : Option String) :
    audioDecodeSlots n seed = audioEncodeSlots n seed := rfl

/-! ## Lemmas about writing and reading LSBs -/

theorem setLSB_mod_two (v : Nat) (b : Bool) : setLSB v b % 2 = b.toNat := by
  have ht : (setLSB v b).testBit 0 = b := by
    cases b <;> simp [setLSB]
  rw [Nat.testBit_zero] at ht
  cases b <;> simp at ht ⊢ <;> omega

theorem setLSB_eq_of_lt {v : Nat} (h : v < 256) (b : Bool) :
    setLSB v b = 2 * (v / 2) + b.toNat := by
  have hfin : ∀ (x : Fin 256) (c : Bool),
      setLSB x.val c = 2 * (x.val / 2) + c.toNat := by decide
  exact hfin ⟨v, h⟩ b

theorem setLSB_lt {v : Nat} (h : v < 256) (b : Bool) : setLSB v b < 256 := by
  rw [setLSB_eq_of_lt h]
  cases b <;> simp <;> omega

theorem setLSB_div_two {v : Nat} (h : v < 256) (b : Bool) :
    setLSB v b / 2 = v / 2 := by
  rw [setLSB_eq_of_lt h]
  cases b <;> simp <;> omega

theorem writeFold_length (pairs : List (Nat × Bool)) (d : List Nat) :
    (pairs.foldl (fun d p => d.set p.1 (setLSB (d.getD p.1 0) p.2)) d).length
      = d.length := by
  induction pairs generalizing d with
  | nil => rfl
  | cons p t ih =>
    rw [List.foldl_cons, ih]
    simp

theorem writeFold_getD_not_mem (pairs : List (Nat × Bool)) (d : List Nat)
    (k : Nat) (hk : k ∉ pairs.map Prod.fst) :
    (pairs.foldl (fun d p => d.set p.1 (setLSB (d.getD p.1 0) p.2)) d).getD
        k 0 = d.getD k 0 := by
  induction pairs generalizing d with
  | nil => rfl
  | cons p t ih =>
    rw [List.map_cons, List.mem_cons] at hk
    push_neg at hk
    rw [List.foldl_cons, ih _ hk.2, getD_set_ne _ (fun h => hk.1 h.symm)]

theorem writeFold_getD_mem (pairs : List (Nat × Bool)) (d : List Nat)
    (hnd : (pairs.map Prod.fst).Nodup) {s : Nat} {b : Bool}
    (hmem : (s, b) ∈ pairs) (hs : s < d.length) :
    (pairs.foldl (fun d p => d.set p.1 (setLSB (d.getD p.1 0) p.2)) d).getD
        s 0 = setLSB (d.getD s 0) b := by
  induction pairs generalizing d with
  | nil => simp at hmem
  | cons p t ih =>
    obtain ⟨ps, pb⟩ := p
    rw [List.map_cons, List.nodup_cons] at hnd
    rw [List.foldl_cons]
    rcases List.mem_cons.1 hmem with heq | hmem2
    · injection heq with h1 h2
      subst h1
      subst h2
      rw [writeFold_getD_not_mem t _ s hnd.1]
      exact getD_set_self d hs _ _
    · have hsmem : s ∈ t.map Prod.fst :=
        List.mem_map.2 ⟨(s, b), hmem2, rfl⟩
      have hne : ps ≠ s := fun h => hnd.1 (h ▸ hsmem)
      rw [ih _ hnd.2 hmem2 (by simpa using hs), getD_set_ne _ hne]

theorem map_fst_zip_sublist (l1 : List Nat) (l2 : List Bool) :
    ((l1.zip l2).map Prod.fst).Sublist l1 := by
  induction l1 generalizing l2 with
  | nil => simp
  | cons a t ih =>
    cases l2 with
    | nil => simp
    | cons b t2 =>
      rw [List.zip_cons_cons, List.map_cons]
      exact (ih t2).cons₂ a

theorem zip_getElem_mem (l1 : List Nat) (l2 : List Bool) (i : Nat)
    (h1 : i < l1.length) (h2 : i < l2.length) :
    (l1[i], l2[i]) ∈ l1.zip l2 := by
  apply List.getElem?_mem (n := i)
  rw [List.getElem?_zip_eq_some]
  exact ⟨List.getElem?_eq_getElem h1, List.getElem?_eq_getElem h2⟩

theorem writeBits_length (d slots : List Nat) (bits : List Bool) :
    (writeBits d slots bits).length = d.length :=
  writeFold_length _ _

theorem writeBits_getD_not_mem (d slots : List Nat) (bits : List Bool)
    {k : Nat} (hk : k ∉ slots) :
    (writeBits d slots bits).getD k 0 = d.getD k 0 := by
  apply writeFold_getD_not_mem
  intro hmem
  rw [List.mem_map] at hmem
  obtain ⟨p, hp, hpk⟩ := hmem
  exact hk (hpk ▸ (List.of_mem_zip hp).1)

theorem writeBits_getD_slot (d slots : List Nat) (bits : List Bool)
    (hnd : slots.Nodup) (hlt : ∀ x ∈ slots, x < d.length)
    {i : Nat} (hi : i < bits.length) (hisl : i < slots.length) :
    (writeBits d slots bits).getD slots[i] 0 =
      setLSB (d.getD slots[i] 0) bits[i] := by
  apply writeFold_getD_mem
  · exact ((map_fst_zip_sublist slots bits).nodup hnd)
  · exact zip_getElem_mem slots bits i hisl hi
  · exact hlt _ (List.getElem_mem hisl)

theorem readBit_writeBits (d slots : List Nat) (bits : List Bool)
    (hnd : slots.Nodup) (hlt : ∀ x ∈ slots, x < d.length)
    (hlen : bits.length ≤ slots.length) {i : Nat} (hi : i < bits.length) :
    readBit (writeBits d slots bits) slots i = bits[i] := by
  have hisl : i < slots.length := Nat.lt_of_lt_of_le hi hlen
  unfold readBit
  rw [writeBits_length]
  have hgetd : slots.getD i d.length = slots[i] := by
    rw [List.getD_eq_getElem?_getD, List.getElem?_eq_getElem hisl]
    rfl
  rw [hgetd, writeBits_getD_slot d slots bits hnd hlt hi hisl,
    setLSB_mod_two]
  cases bits[i] <;> rfl

/-! ## Pixel round-trip assembly -/

theorem getElem_idx_congr {α : Type} {l : List α} {i j : Nat} (h : i = j)
    (hi : i < l.length) (hj : j < l.length) : l[i] = l[j] := by
  subst h
  rfl

theorem encodeMessage_eq_some (data M : List Nat) (seed : Option String)
    (hcap : (padStart 32 (toBinaryDigits (bytesToBinary M).length)
        ++ bytesToBinary M).length ≤ (availableIndices data.length).length) :
    encodeMessage data M seed = some (writeBits data
      (encodeSlots data.length seed)
      (padStart 32 (toBinaryDigits (bytesToBinary M).length)
        ++ bytesToBinary M)) := by
  simp only [encodeMessage]
  rw [if_neg (by omega)]

theorem decodeMessage_eq_some (data : List Nat) (seed : Option String)
    (h1 : headerValue data seed ≠ 0)
    (h2 : (headerValue data seed : Int) ≤
      ((decodeSlots data.length seed).length : Int) - 32) :
    decodeMessage data seed = some (binaryToBytes
      ((List.range (headerValue data seed)).map
        (fun i => readBit data (decodeSlots data.length seed) (32 + i)))) := by
  simp only [decodeMessage]
  rw [if_neg]
  push_neg
  exact ⟨h1, by omega⟩

theorem decode_of_writeBits (data M : List Nat) (seed : Option String)
    (hM : ∀ b ∈ M, b < 256) (hne : M ≠ [])
    (hsize : 8 * M.length < 2 ^ 32)
    (hcap : 8 * M.length + 32 ≤ (availableIndices data.length).length) :
    decodeMessage (writeBits data (encodeSlots data.length seed)
      (padStart 32 (toBinaryDigits (bytesToBinary M).length)
        ++ bytesToBinary M)) seed = some M := by
  set bp := bytesToBinary M with hbpdef
  have hbplen : bp.length = 8 * M.length := bytesToBinary_length hM
  have hn32 : bp.length < 2 ^ 32 := by omega
  set hdr := padStart 32 (toBinaryDigits bp.length) with hhdrdef
  have hhlen : hdr.length = 32 :=
    padStart_length_eq (toBinaryDigits_length_le (by omega) hn32)
  have hbits : (hdr ++ bp).length = 32 + bp.length := by
    rw [List.length_append, hhlen]
  set slots := encodeSlots data.length seed with hslots
  have hnd : slots.Nodup := encodeSlots_nodup data.length seed
  have hlt : ∀ x ∈ slots, x < data.length := fun x hx => encodeSlots_lt hx
  have hslen : slots.length = (availableIndices data.length).length :=
    encodeSlots_length _ _
  have hlen : (hdr ++ bp).length ≤ slots.length := by omega
  set d2 := writeBits data slots (hdr ++ bp) with hd2
  have hd2len : d2.length = data.length := writeBits_length _ _ _
  have hds : decodeSlots d2.length seed = slots := by
    rw [hd2len, decodeSlots_eq_encodeSlots]
  have hread : ∀ (i : Nat) (hi : i < (hdr ++ bp).length),
      readBit d2 slots i = (hdr ++ bp)[i] :=
    fun i hi => readBit_writeBits data slots (hdr ++ bp) hnd hlt hlen hi
  have hheaderbits : (List.range 32).map (readBit d2 slots) = hdr := by
    apply List.ext_getElem
    · simp [hhlen]
    · intro i h1 h2
      simp only [List.getElem_map, List.getElem_range]
      rw [hread i (by omega)]
      rw [List.getElem_append, dif_pos h2]
  have hhv : headerValue d2 seed = bp.length := by
    unfold headerValue
    rw [hds, hheaderbits, hhdrdef, bitsToNat_padStart,
      bitsToNat_toBinaryDigits]
  have hpay : (List.range bp.length).map (fun i => readBit d2 slots (32 + i))
      = bp := by
    apply List.ext_getElem
    · simp
    · intro i h1 h2
      simp only [List.getElem_map, List.getElem_range]
      rw [hread (32 + i) (by omega)]
      rw [List.getElem_append, dif_neg (by omega)]
      exact getElem_idx_congr (by omega) (by omega) (by omega)
  have hMlen : 1 ≤ M.length := by
    rcases M with _ | _
    · exact absurd rfl hne
    · simp
  rw [decodeMessage_eq_some d2 seed (by omega)
    (by rw [hds, hhv]; omega)]
  rw [hds, hhv, hpay, binaryToBytes_bytesToBinary hM]

/-! ## Further helper lemmas -/

theorem byteBits_length_ge (b : Nat) : 8 ≤ (byteBits b).length := by
  unfold byteBits
  rw [padStart_length]
  omega

theorem bytesToBinary_length_ge (M : List Nat) :
    8 * M.length ≤ (bytesToBinary M).length := by
  induction M with
  | nil => simp [bytesToBinary]
  | cons b t ih =>
    rw [bytesToBinary_cons, List.length_append]
    have := byteBits_length_ge b
    simp only [List.length_cons]
    omega

theorem getD_lt_256 {d : List Nat} (hd : ∀ b ∈ d, b < 256) (k : Nat) :
    d.getD k 0 < 256 := by
  rw [List.getD_eq_getElem?_getD]
  cases h : d[k]? with
  | none => simp
  | some v =>
    simp only [Option.getD_some]
    exact hd v (List.getElem?_mem h)

theorem writeFold_div_two (pairs : List (Nat × Bool)) (d : List Nat)
    (hd : ∀ b ∈ d, b < 256) (k : Nat) :
    (pairs.foldl (fun d p => d.set p.1 (setLSB (d.getD p.1 0) p.2)) d).getD
        k 0 / 2 = d.getD k 0 / 2 := by
  induction pairs generalizing d with
  | nil => rfl
  | cons p t ih =>
    rw [List.foldl_cons]
    have hv : d.getD p.1 0 < 256 := getD_lt_256 hd p.1
    have hd2 : ∀ b ∈ d.set p.1 (setLSB (d.getD p.1 0) p.2), b < 256 := by
      intro b hb
      rcases List.mem_or_eq_of_mem_set hb with h | rfl
      · exact hd b h
      · exact setLSB_lt hv p.2
    rw [ih _ hd2]
    rcases eq_or_ne p.1 k with rfl | hne
    · by_cases hk : p.1 < d.length
      · rw [getD_set_self d hk]
        exact setLSB_div_two hv p.2
      · rw [List.set_eq_of_length_le (by omega)]
    · rw [getD_set_ne _ hne]

theorem writeBits_div_two (d slots : List Nat) (bits : List Bool)
    (hd : ∀ b ∈ d, b < 256) (k : Nat) :
    (writeBits d slots bits).getD k 0 / 2 = d.getD k 0 / 2 :=
  writeFold_div_two _ _ hd k

theorem extractBit_exact_store (y : Nat) (hy : y < 2 ^ 32) :
    extractBit ⟨(y : Int), 32767⟩ = (y % 2 == 1) := by
  unfold extractBit Frac.mulInt Frac.floor
  simp only []
  have h1 : ((y : Int) * 32767).ediv ((32767 : Nat) : Int) = (y : Int) := by
    exact Int.mul_ediv_cancel _ (by omega)
  rw [h1]
  unfold toUint32
  rw [Int.emod_eq_of_lt (by omega) (by exact_mod_cast hy), Int.toNat_natCast,
    Nat.and_one_is_mod]

/-! ## Claim theorems -/

/-- Claim C1, counterexample: the round-trip fails as stated at the empty
payload.  A 44-component carrier has 33 usable slots and bitlen([]) + 32 =
32 ≤ 33, so the claim covers this input and the embedding succeeds, but the
decoder rejects the recovered zero length (payloadLength <= 0) and returns
the NoPayload sentinel instead of the empty payload. -/
theorem C1_pixel_roundtrip_counterexample :
    (encodeMessage (List.replicate 44 0) [] (some "")).isSome = true ∧
    8 * ([] : List Nat).length + 32 ≤ (availableIndices 44).length ∧
    decodeMessage ((encodeMessage (List.replicate 44 0) [] (some "")).getD [])
      (some "") ≠ some [] :=
  ⟨by decide, by decide, by decide⟩

/-- Claim C1 (amended): pixel round-trip.  For every pixel carrier, every
seed (absent, empty or any string) and every nonempty byte payload whose
bit length is representable in the 32-bit header and fits the usable-slot
capacity, decoding the encoded carrier returns exactly the payload.  The
amendment excludes the empty payload (see the counterexample) and makes
the 32-bit-header bound of the data model explicit. -/
theorem C1_pixel_roundtrip_amended (data M : List Nat) (seed : Option String)
    (hM : ∀ b ∈ M, b < 256) (hne : M ≠ [])
    (hsize : 8 * M.length < 2 ^ 32)
    (hcap : 8 * M.length + 32 ≤ (availableIndices data.length).length) :
    ∃ d2, encodeMessage data M seed = some d2 ∧
      decodeMessage d2 seed = some M := by
  refine ⟨_, encodeMessage_eq_some data M seed ?_,
    decode_of_writeBits data M seed hM hne hsize hcap⟩
  have h1 : (bytesToBinary M).length = 8 * M.length := bytesToBinary_length hM
  have h2 : (padStart 32 (toBinaryDigits (bytesToBinary M).length)).length
      = 32 := padStart_length_eq (toBinaryDigits_length_le (by omega)
        (by omega))
  rw [List.length_append]
  omega

/-- Witness for C1 (amended): a one-byte payload embedded with the default
seed (seed argument absent) into a 56-component carrier round-trips. -/
theorem C1_pixel_roundtrip_amended_witness :
    (∀ b ∈ [165], b < 256) ∧ ([165] : List Nat) ≠ [] ∧
    8 * ([165] : List Nat).length < 2 ^ 32 ∧
    8 * ([165] : List Nat).length + 32 ≤
      (availableIndices (List.replicate 56 7).length).length ∧
    ∃ d2, encodeMessage (List.replicate 56 7) [165] none = some d2 ∧
      decodeMessage d2 none = some [165] :=
  ⟨by decide, by decide, by decide, by decide,
    C1_pixel_roundtrip_amended (List.replicate 56 7) [165] none (by decide)
      (by decide) (by decide) (by decide)⟩

/-- Claim C2: the audio round-trip fails on the code.  Embedding the single
byte 0x80 into a silent (all-zero) 40-sample mono carrier succeeds, but a
1-bit written into a zero sample becomes intSample 1, is stored as the
binary32 rounding of 1/32767 (which is strictly below 1/32767), and
re-quantizes to floor 0; the decoded length header therefore reads 0 and
decodeAudioMessage returns the NoPayload sentinel instead of the payload.
The claimed per-sample recovery only holds when the quotient intSample /
32767 is stored exactly (extractBit_exact_store above); the Float32Array
store rounds it. -/
theorem C2_audio_roundtrip_bug :
    (encodeAudioMessage ⟨1, 40, [List.replicate 40 ⟨0, 1⟩]⟩ [128]
      (some "")).isSome = true ∧
    decodeAudioMessage
      ((encodeAudioMessage ⟨1, 40, [List.replicate 40 ⟨0, 1⟩]⟩ [128]
        (some "")).getD ⟨1, 40, [List.replicate 40 ⟨0, 1⟩]⟩) (some "")
      = none :=
  ⟨by decide, by decide⟩

/-- Claim C3: permutation determinism.  For every seed string and every
slot count, generating the shuffled slot sequence twice yields identical
sequences; in particular the generation performed inside encodeMessage and
the one performed inside decodeMessage (the source duplicates the code)
agree exactly. -/
theorem C3_permutation_deterministic (s : String) (n : Nat) :
    fisherYates (seedInit s) (availableIndices n)
        = fisherYates (seedInit s) (availableIndices n) ∧
    encodeSlots n (some s) = decodeSlots n (some s) :=
  ⟨rfl, rfl⟩

/-- Claim C4, counterexample: an absent seed does not give the natural slot
order.  The default parameter substitutes the nonempty constant
DEFAULT_SEED, so the slots are chaotically shuffled: already for a
48-component carrier the encoder's slot sequence differs from the
ascending usable-slot sequence. -/
theorem C4_no_seed_counterexample :
    encodeSlots 48 none ≠ availableIndices 48 := by
  decide

/-- Claim C4 (amended): only the empty seed string disables shuffling, in
which case all four codec directions use the usable slots in natural
ascending order; an absent seed falls back to the default seed constant of
the respective file and shuffles with it. -/
theorem C4_no_seed_amended (n : Nat) :
    encodeSlots n (some "") = availableIndices n ∧
    decodeSlots n (some "") = availableIndices n ∧
    audioEncodeSlots n (some "") = List.range n ∧
    audioDecodeSlots n (some "") = List.range n ∧
    encodeSlots n none
        = fisherYates (seedInit DEFAULT_SEED) (availableIndices n) ∧
    audioEncodeSlots n none
        = fisherYates (seedInit AUDIO_DEFAULT_SEED) (List.range n) := by
  refine ⟨?_, ?_, ?_, ?_, ?_, ?_⟩
  · simp [encodeSlots]
  · simp [decodeSlots]
  · simp [audioEncodeSlots]
  · simp [audioDecodeSlots]
  · simp only [encodeSlots, Option.getD_none]
    rw [if_neg (by decide)]
  · simp only [audioEncodeSlots, Option.getD_none]
    rw [if_neg (by decide)]

/-- Claim C5: byte-boundary tolerance on extraction.  Whenever the decoded
32-bit header L passes validation (positive and at most usable slots minus
32), decodeMessage returns a byte sequence rather than failing, truncating
the L extracted bits to ⌊L/8⌋ whole bytes. -/
theorem C5_byte_boundary_tolerance (data : List Nat) (seed : Option String)
    (h1 : 0 < headerValue data seed)
    (h2 : headerValue data seed + 32 ≤
      (decodeSlots data.length seed).length) :
    ∃ bs, decodeMessage data seed = some bs ∧
      bs.length = headerValue data seed / 8 := by
  refine ⟨_, decodeMessage_eq_some data seed (by omega) (by omega), ?_⟩
  rw [binaryToBytes_length]
  simp

/-- Witness for C5: a carrier whose header decodes to L = 4 (not a multiple
of 8) passes validation and decodes to ⌊4/8⌋ = 0 bytes. -/
theorem C5_byte_boundary_tolerance_witness :
    0 < headerValue ((List.replicate 48 0).set 38 1) (some "") ∧
    headerValue ((List.replicate 48 0).set 38 1) (some "") % 8 ≠ 0 ∧
    headerValue ((List.replicate 48 0).set 38 1) (some "") + 32 ≤
      (decodeSlots ((List.replicate 48 0).set 38 1).length (some "")).length ∧
    ∃ bs, decodeMessage ((List.replicate 48 0).set 38 1) (some "") = some bs ∧
      bs.length = headerValue ((List.replicate 48 0).set 38 1) (some "") / 8 :=
  ⟨by decide, by decide, by decide,
    C5_byte_boundary_tolerance ((List.replicate 48 0).set 38 1) (some "")
      (by decide) (by decide)⟩

theorem envelope_slices (f : Nat) (salt iv ct : List Nat)
    (hsalt : salt.length = 16) (hiv : iv.length = 12) :
    ((f :: (salt ++ iv ++ ct)).drop 1).take 16 = salt ∧
    ((f :: (salt ++ iv ++ ct)).drop 17).take 12 = iv ∧
    (f :: (salt ++ iv ++ ct)).drop 29 = ct ∧
    (f :: (salt ++ iv ++ ct)).getD 0 0 = f ∧
    (f :: (salt ++ iv ++ ct)).length = 29 + ct.length := by
  refine ⟨?_, ?_, ?_, rfl, ?_⟩
  · show (salt ++ iv ++ ct).take 16 = salt
    rw [List.append_assoc]
    exact List.take_left' hsalt
  · show ((salt ++ iv ++ ct).drop 16).take 12 = iv
    rw [List.append_assoc, List.drop_left' hsalt]
    exact List.take_left' hiv
  · show (salt ++ iv ++ ct).drop 28 = ct
    apply List.drop_left'
    rw [List.length_append]
    omega
  · simp only [List.length_cons, List.length_append, hsalt, hiv]
    omega

/-- Claim C6: capacity boundary.  A payload whose total bitstream (32-bit
header plus payload bits) exactly fills the usable slots embeds
successfully, and any payload whose bitstream exceeds the usable slots
yields the CapacityExceeded sentinel (null, returned rather than thrown);
likewise for the audio codec with capacity channelCount * sampleCount. -/
theorem C6_capacity_boundary :
    (∀ (data M : List Nat) (seed : Option String), (∀ b ∈ M, b < 256) →
      8 * M.length < 2 ^ 32 →
      32 + 8 * M.length = (availableIndices data.length).length →
      (encodeMessage data M seed).isSome = true) ∧
    (∀ (data M : List Nat) (seed : Option String),
      (availableIndices data.length).length < 32 + 8 * M.length →
      encodeMessage data M seed = none) ∧
    (∀ (buf : AudioBuffer) (M : List Nat) (seed : Option String),
      (∀ b ∈ M, b < 256) → 8 * M.length < 2 ^ 32 →
      32 + 8 * M.length = buf.numberOfChannels * buf.length →
      (encodeAudioMessage buf M seed).isSome = true) ∧
    (∀ (buf : AudioBuffer) (M : List Nat) (seed : Option String),
      buf.numberOfChannels * buf.length < 32 + 8 * M.length →
      encodeAudioMessage buf M seed = none) := by
  have hexact : ∀ (M : List Nat), (∀ b ∈ M, b < 256) →
      8 * M.length < 2 ^ 32 →
      (padStart 32 (toBinaryDigits (bytesToBinary M).length)
        ++ bytesToBinary M).length = 32 + 8 * M.length := by
    intro M hM hsize
    have h1 : (bytesToBinary M).length = 8 * M.length :=
      bytesToBinary_length hM
    have h2 : (padStart 32 (toBinaryDigits (bytesToBinary M).length)).length
        = 32 := padStart_length_eq (toBinaryDigits_length_le (by omega)
          (by omega))
    rw [List.length_append]
    omega
  have hge : ∀ (M : List Nat),
      32 + 8 * M.length ≤
        (padStart 32 (toBinaryDigits (bytesToBinary M).length)
          ++ bytesToBinary M).length := by
    intro M
    have h1 := bytesToBinary_length_ge M
    have h2 : 32 ≤
        (padStart 32 (toBinaryDigits (bytesToBinary M).length)).length := by
      rw [padStart_length]
      omega
    rw [List.length_append]
    omega
  refine ⟨?_, ?_, ?_, ?_⟩
  · intro data M seed hM hsize hcap
    simp only [encodeMessage]
    rw [if_neg (by rw [hexact M hM hsize]; omega)]
    rfl
  · intro data M seed hover
    simp only [encodeMessage]
    rw [if_pos (by have := hge M; omega)]
  · intro buf M seed hM hsize hcap
    simp only [encodeAudioMessage]
    rw [if_neg (by rw [hexact M hM hsize]; omega)]
    rfl
  · intro buf M seed hover
    simp only [encodeAudioMessage]
    rw [if_pos (by have := hge M; omega)]

/-- Witness for C6: a 53-component carrier has exactly 40 usable slots, so
one payload byte (40 total bits) embeds while two payload bytes are
rejected; a mono 40-sample audio buffer behaves identically, and a mono
39-sample buffer rejects one byte. -/
theorem C6_capacity_boundary_witness :
    (32 + 8 * ([165] : List Nat).length
        = (availableIndices (List.replicate 53 0).length).length) ∧
    (encodeMessage (List.replicate 53 0) [165] (some "")).isSome = true ∧
    ((availableIndices (List.replicate 53 0).length).length
        < 32 + 8 * ([165, 23] : List Nat).length) ∧
    encodeMessage (List.replicate 53 0) [165, 23] (some "") = none ∧
    (32 + 8 * ([165] : List Nat).length
        = (AudioBuffer.mk 1 40 [List.replicate 40 ⟨0, 1⟩]).numberOfChannels
          * (AudioBuffer.mk 1 40 [List.replicate 40 ⟨0, 1⟩]).length) ∧
    (encodeAudioMessage ⟨1, 40, [List.replicate 40 ⟨0, 1⟩]⟩ [165]
      (some "")).isSome = true ∧
    ((AudioBuffer.mk 1 39 [List.replicate 39 ⟨0, 1⟩]).numberOfChannels
        * (AudioBuffer.mk 1 39 [List.replicate 39 ⟨0, 1⟩]).length
        < 32 + 8 * ([165] : List Nat).length) ∧
    encodeAudioMessage ⟨1, 39, [List.replicate 39 ⟨0, 1⟩]⟩ [165]
      (some "") = none :=
  ⟨by decide,
    C6_capacity_boundary.1 (List.replicate 53 0) [165] (some "") (by decide)
      (by decide) (by decide),
    by decide,
    C6_capacity_boundary.2.1 (List.replicate 53 0) [165, 23] (some "")
      (by decide),
    by decide,
    C6_capacity_boundary.2.2.1 ⟨1, 40, [List.replicate 40 ⟨0, 1⟩]⟩ [165]
      (some "") (by decide) (by decide) (by decide),
    by decide,
    C6_capacity_boundary.2.2.2 ⟨1, 39, [List.replicate 39 ⟨0, 1⟩]⟩ [165]
      (some "") (by decide)⟩

/-- Claim C7: envelope round-trip.  With the platform primitives behaving
as their standard inverse pairs (AES-GCM open inverts seal under the same
key and nonce; gunzip inverts gzip), opening a sealed envelope with the
same password recovers exactly the original payload, for both values of
the compression flag and any 16-byte salt and 12-byte nonce. -/
theorem C7_envelope_roundtrip {K : Type}
    (deriveKey : String → List Nat → K)
    (aesGcmEncrypt : K → List Nat → List Nat → List Nat)
    (aesGcmDecrypt : K → List Nat → List Nat → Option (List Nat))
    (gzipCompress gzipDecompress : List Nat → List Nat)
    (utf8Valid : List Nat → Bool)
    (hcipher : ∀ k iv m, aesGcmDecrypt k iv (aesGcmEncrypt k iv m) = some m)
    (hgzip : ∀ m, gzipDecompress (gzipCompress m) = m)
    (M : List Nat) (pw : String) (compress : Bool) (salt iv : List Nat)
    (hsalt : salt.length = 16) (hiv : iv.length = 12) :
    (decryptData deriveKey aesGcmDecrypt gzipDecompress utf8Valid
      (encryptData deriveKey aesGcmEncrypt gzipCompress M pw compress salt
        iv) pw).map Prod.fst = some M := by
  obtain ⟨h1, h2, h3, h4, _⟩ := envelope_slices (if compress then 1 else 0)
    salt iv (aesGcmEncrypt (deriveKey pw salt) iv
      (if compress then gzipCompress M else M)) hsalt hiv
  simp only [encryptData, decryptData]
  simp only [h1, h2, h3, h4, hcipher]
  cases compress
  · simp
  · simp [hgzip]

/-- Witness for C7: identity primitives (which satisfy both inverse laws)
with a concrete two-byte payload, password, salt and nonce. -/
theorem C7_envelope_roundtrip_witness :
    (∀ (k : Unit) (iv m : List Nat),
      (fun (_ : Unit) (_ m2 : List Nat) => some m2) k iv
        ((fun (_ : Unit) (_ m2 : List Nat) => m2) k iv m) = some m) ∧
    (∀ m : List Nat,
      (fun (m2 : List Nat) => m2) ((fun (m2 : List Nat) => m2) m) = m) ∧
    (List.replicate 16 9).length = 16 ∧
    (List.replicate 12 5).length = 12 ∧
    (decryptData (fun (_ : String) (_ : List Nat) => ())
        (fun (_ : Unit) (_ m2 : List Nat) => some m2)
        (fun (m2 : List Nat) => m2) (fun (_ : List Nat) => true)
        (encryptData (fun (_ : String) (_ : List Nat) => ())
          (fun (_ : Unit) (_ m2 : List Nat) => m2)
          (fun (m2 : List Nat) => m2) [104, 105] "pw" true
          (List.replicate 16 9) (List.replicate 12 5)) "pw").map Prod.fst
      = some [104, 105] :=
  ⟨fun _ _ _ => rfl, fun _ => rfl, by decide, by decide,
    C7_envelope_roundtrip (fun (_ : String) (_ : List Nat) => ())
      (fun (_ : Unit) (_ m2 : List Nat) => m2)
      (fun (_ : Unit) (_ m2 : List Nat) => some m2)
      (fun (m2 : List Nat) => m2) (fun (m2 : List Nat) => m2)
      (fun (_ : List Nat) => true) (fun _ _ _ => rfl) (fun _ => rfl)
      [104, 105] "pw" true (List.replicate 16 9) (List.replicate 12 5)
      (by decide) (by decide)⟩

/-- Claim C8: envelope layout invariant.  For every payload, password and
compression flag, the envelope byte sequence has byte 0 equal to 1 exactly
when compression was requested and 0 otherwise, bytes [1,17) equal to the
salt, bytes [17,29) equal to the nonce, bytes [29,end) equal to the
ciphertext (with its tag, as produced by the cipher), and total length at
least 29. -/
theorem C8_envelope_layout {K : Type}
    (deriveKey : String → List Nat → K)
    (aesGcmEncrypt : K → List Nat → List Nat → List Nat)
    (gzipCompress : List Nat → List Nat)
    (M : List Nat) (pw : String) (compress : Bool) (salt iv : List Nat)
    (hsalt : salt.length = 16) (hiv : iv.length = 12) :
    (encryptData deriveKey aesGcmEncrypt gzipCompress M pw compress salt
        iv).getD 0 0 = (if compress then 1 else 0) ∧
    ((encryptData deriveKey aesGcmEncrypt gzipCompress M pw compress salt
        iv).drop 1).take 16 = salt ∧
    ((encryptData deriveKey aesGcmEncrypt gzipCompress M pw compress salt
        iv).drop 17).take 12 = iv ∧
    (encryptData deriveKey aesGcmEncrypt gzipCompress M pw compress salt
        iv).drop 29
      = aesGcmEncrypt (deriveKey pw salt) iv
          (if compress then gzipCompress M else M) ∧
    29 ≤ (encryptData deriveKey aesGcmEncrypt gzipCompress M pw compress
        salt iv).length := by
  obtain ⟨h1, h2, h3, h4, h5⟩ := envelope_slices (if compress then 1 else 0)
    salt iv (aesGcmEncrypt (deriveKey pw salt) iv
      (if compress then gzipCompress M else M)) hsalt hiv
  simp only [encryptData]
  exact ⟨h4, h1, h2, h3, by omega⟩

/-- Witness for C8: concrete identity primitives, payload, password, salt
and nonce; both conjunction parts of the layout are checked at the
computed envelope. -/
theorem C8_envelope_layout_witness :
    (List.replicate 16 9).length = 16 ∧
    (List.replicate 12 5).length = 12 ∧
    ((encryptData (fun (_ : String) (_ : List Nat) => ())
        (fun (_ : Unit) (_ m2 : List Nat) => m2)
        (fun (m2 : List Nat) => m2) [104, 105] "pw" false
        (List.replicate 16 9) (List.replicate 12 5)).getD 0 0
      = (if false then 1 else 0) ∧
    ((encryptData (fun (_ : String) (_ : List Nat) => ())
        (fun (_ : Unit) (_ m2 : List Nat) => m2)
        (fun (m2 : List Nat) => m2) [104, 105] "pw" false
        (List.replicate 16 9) (List.replicate 12 5)).drop 1).take 16
      = List.replicate 16 9 ∧
    ((encryptData (fun (_ : String) (_ : List Nat) => ())
        (fun (_ : Unit) (_ m2 : List Nat) => m2)
        (fun (m2 : List Nat) => m2) [104, 105] "pw" false
        (List.replicate 16 9) (List.replicate 12 5)).drop 17).take 12
      = List.replicate 12 5 ∧
    (encryptData (fun (_ : String) (_ : List Nat) => ())
        (fun (_ : Unit) (_ m2 : List Nat) => m2)
        (fun (m2 : List Nat) => m2) [104, 105] "pw" false
        (List.replicate 16 9) (List.replicate 12 5)).drop 29
      = (fun (_ : Unit) (_ m2 : List Nat) => m2)
          ((fun (_ : String) (_ : List Nat) => ()) "pw"
            (List.replicate 16 9)) (List.replicate 12 5)
          (if false then (fun (m2 : List Nat) => m2) [104, 105]
            else [104, 105]) ∧
    29 ≤ (encryptData (fun (_ : String) (_ : List Nat) => ())
        (fun (_ : Unit) (_ m2 : List Nat) => m2)
        (fun (m2 : List Nat) => m2) [104, 105] "pw" false
        (List.replicate 16 9) (List.replicate 12 5)).length) :=
  ⟨by decide, by decide,
    C8_envelope_layout (fun (_ : String) (_ : List Nat) => ())
      (fun (_ : Unit) (_ m2 : List Nat) => m2)
      (fun (m2 : List Nat) => m2) [104, 105] "pw" false
      (List.replicate 16 9) (List.replicate 12 5) (by decide) (by decide)⟩

/-- Claim C9: encode frame property.  encodeMessage operates on a clone (in
this embedding: the returned buffer is a function of the input, which is
left untouched), and in the returned buffer every alpha component (index
congruent to 3 mod 4) is byte-for-byte equal to the original while every
component keeps the upper 7 bits of the original byte, i.e. differs at
most in its lowest bit. -/
theorem C9_encode_frame (data M : List Nat) (seed : Option String)
    (d2 : List Nat) (hdata : ∀ b ∈ data, b < 256)
    (henc : encodeMessage data M seed = some d2) :
    d2.length = data.length ∧
    ∀ i, i < data.length →
      ((i + 1) % 4 = 0 → d2.getD i 0 = data.getD i 0) ∧
      d2.getD i 0 / 2 = data.getD i 0 / 2 := by
  simp only [encodeMessage] at henc
  split at henc
  · exact absurd henc (by simp)
  · have hd2 : d2 = writeBits data (encodeSlots data.length seed)
        (padStart 32 (toBinaryDigits (bytesToBinary M).length)
          ++ bytesToBinary M) := (Option.some.injEq _ _ ▸ henc).symm
    subst hd2
    refine ⟨writeBits_length _ _ _, fun i hi => ⟨fun halpha => ?_, ?_⟩⟩
    · apply writeBits_getD_not_mem
      intro hmem
      exact availableIndices_alpha_free
        ((encodeSlots_perm data.length seed).mem_iff.1 hmem) halpha
    · exact writeBits_div_two _ _ _ hdata i

/-- Witness for C9: a 56-component carrier of bytes 7 with a one-byte
payload; the encoding exists and the frame conditions hold for it. -/
theorem C9_encode_frame_witness :
    (∀ b ∈ List.replicate 56 7, b < 256) ∧
    encodeMessage (List.replicate 56 7) [165] (some "") =
      some ((encodeMessage (List.replicate 56 7) [165] (some "")).getD []) ∧
    (((encodeMessage (List.replicate 56 7) [165] (some "")).getD []).length
        = (List.replicate 56 7).length ∧
    ∀ i, i < (List.replicate 56 7).length →
      ((i + 1) % 4 = 0 →
        ((encodeMessage (List.replicate 56 7) [165] (some "")).getD
            []).getD i 0 = (List.replicate 56 7).getD i 0) ∧
      ((encodeMessage (List.replicate 56 7) [165] (some "")).getD
          []).getD i 0 / 2 = (List.replicate 56 7).getD i 0 / 2) :=
  ⟨by decide, by decide,
    C9_encode_frame (List.replicate 56 7) [165] (some "") _ (by decide)
      (by decide)⟩

/-- Claim C10: seed collision by character-code sum.  Two distinct nonempty
seed strings whose character codes sum to the same value initialize the
generator identically, so they produce the same slot permutation for every
slot count and encodeMessage/decodeMessage behave identically under the
two seeds; a payload embedded with one seed is therefore extracted by
decoding with the other. -/
theorem C10_seed_collision (s1 s2 : String)
    (h : seedInit s1 = seedInit s2) (h1 : s1 ≠ "") (h2 : s2 ≠ "") :
    (∀ n, encodeSlots n (some s1) = encodeSlots n (some s2)) ∧
    (∀ (data M : List Nat),
      encodeMessage data M (some s1) = encodeMessage data M (some s2)) ∧
    (∀ (data : List Nat),
      decodeMessage data (some s1) = decodeMessage data (some s2)) := by
  have hslots : ∀ n, encodeSlots n (some s1) = encodeSlots n (some s2) := by
    intro n
    simp only [encodeSlots, Option.getD_some]
    rw [if_neg h1, if_neg h2, h]
  have hdslots : ∀ n, decodeSlots n (some s1) = decodeSlots n (some s2) := by
    intro n
    rw [decodeSlots_eq_encodeSlots, decodeSlots_eq_encodeSlots, hslots]
  refine ⟨hslots, fun data M => ?_, fun data => ?_⟩
  · simp only [encodeMessage]
    rw [hslots]
  · simp only [decodeMessage, headerValue]
    rw [hdslots]

/-- Witness for C10: the anagram seeds "ab" and "ba" (character-code sum
195 each) generate identical behaviour, and a payload embedded with "ab"
is decoded with "ba". -/
theorem C10_seed_collision_witness :
    seedInit "ab" = seedInit "ba" ∧ ("ab" : String) ≠ "" ∧
    ("ba" : String) ≠ "" ∧
    ((∀ n, encodeSlots n (some "ab") = encodeSlots n (some "ba")) ∧
    (∀ (data M : List Nat),
      encodeMessage data M (some "ab") = encodeMessage data M (some "ba")) ∧
    (∀ (data : List Nat),
      decodeMessage data (some "ab") = decodeMessage data (some "ba"))) ∧
    decodeMessage ((encodeMessage (List.replicate 56 7) [165]
      (some "ab")).getD []) (some "ba") = some [165] :=
  ⟨by decide, by decide, by decide,
    C10_seed_collision "ab" "ba" (by decide) (by decide) (by decide),
    by decide⟩
